import Mathlib

/-!
# EventPoster `event_obj.py` — shallow embedding and verification

This file embeds the membership state machine, time parsing, expiry logic
and (de)serialization of `src/eventposter/event_obj.py` in Lean 4, and
proves or refutes the frozen specification claims about it.

Modelling conventions:
* user / message / channel / guild identifiers are `Nat` (Discord snowflakes
  are non-negative integers);
* `max_slots : Optional[int]` is `Option Int`; Python truthiness of the
  field (`None` and `0` falsy) is modelled explicitly;
* timestamps (`datetime.timestamp()` floats) are `ℚ`;
* Python `list.remove` (first occurrence) is `List.erase`;
* the `start` attribute is dynamically typed in Python: normally `None` or a
  `datetime`, but `Event.from_json` can leave a raw falsy int `0` in it
  (`if start:` skips the `fromtimestamp` conversion).  `StartField` keeps
  the three cases apart, since `to_json` crashes on the raw-int case;
* external collaborators (the Discord client, the config store, the
  `dateutil` fuzzy parser, `snowflake_time`) are parameters of the
  functions that consult them; persistence / re-render steps carry no
  membership state and are dropped.
-/

/-- The dynamic type of `Event.start` in the Python source: `None`, a
`datetime` (held as its POSIX timestamp), or the raw non-`datetime` int `0`
that `from_json` leaves behind when the stored value is falsy (`if start:`
skips the `fromtimestamp` conversion exactly on a stored `0`). -/
inductive StartField where
  | none : StartField
  | dt (t : ℚ) : StartField
  | raw : StartField
  deriving DecidableEq, Repr

/-- The state of one `Event` (a `discord.ui.View` in the source).  The
`joinDisabled` flag is `join_button.disabled`; the bot / cog handles and the
other button objects carry no event state. -/
structure Event where
  hoster : Nat
  members : List Nat
  event : String
  max_slots : Option Int
  approver : Option Nat
  message : Option Nat
  channel : Option Nat
  guild : Nat
  maybe : List Nat
  start : StartField
  select_options : List (String × String)
  joinDisabled : Bool
  deriving DecidableEq, Repr

namespace Event

/-- Python truthiness of `self.max_slots and len(self.members) >= self.max_slots`:
falsy when `max_slots` is `None` or `0`, otherwise the comparison. -/
def atCapacity (e : Event) : Bool :=
  match e.max_slots with
  | Option.none => false
  | some k => decide (k ≠ 0) && decide ((e.members.length : Int) ≥ k)

/-- Embeds `Event.check_join_enabled`: two sequential conditionals that assign
`join_button.disabled`; their conditions read only `max_slots` and
`members`, which neither assignment touches, so the method amounts to
updating the flag.  Each condition is the Python truthiness of
`self.max_slots and len(self.members) {>=, <} self.max_slots` (falsy when
`max_slots` is `None` or `0`); when both conditions are falsy the flag is
left as it was. -/
def check_join_enabled (e : Event) : Event :=
  let d1 :=
    match e.max_slots with
    | Option.none => e.joinDisabled
    | some k =>
        if k ≠ 0 ∧ (e.members.length : Int) ≥ k then true else e.joinDisabled
  let d2 :=
    match e.max_slots with
    | Option.none => d1
    | some k =>
        if k ≠ 0 ∧ (e.members.length : Int) < k then false else d1
  { e with joinDisabled := d2 }

/-- Embeds `JoinEventButton.callback`: reject a duplicate join, reject at capacity,
otherwise drop the user from `maybe` if present, append to `members` and
recompute the join button.  Rejections return the state unchanged (the
ephemeral notice carries no event state). -/
def join (e : Event) (user : Nat) : Event :=
  if user ∈ e.members then e
  else if e.atCapacity then e
  else
    let e1 := if user ∈ e.maybe then { e with maybe := e.maybe.erase user } else e
    let e2 := { e1 with members := e1.members ++ [user] }
    e2.check_join_enabled

/-- Embeds `LeaveEventButton.callback`: the hoster gets a confirmation sub-flow (no
direct mutation); a non-member is rejected; otherwise the user is removed
from `members` (and from `maybe` if present) and the button recomputed. -/
def leave (e : Event) (user : Nat) : Event :=
  if user = e.hoster then e
  else if user ∉ e.members then e
  else
    let e1 := if user ∈ e.members then { e with members := e.members.erase user } else e
    let e2 := if user ∈ e1.maybe then { e1 with maybe := e1.maybe.erase user } else e1
    e2.check_join_enabled

/-- Embeds `MaybeJoinEventButton.callback`: the hoster is rejected; a member is
moved out of `members` (recomputing the button); then the `maybe` list is
toggled: erase the user if present, else append. -/
def maybeJoin (e : Event) (user : Nat) : Event :=
  if user = e.hoster then e
  else
    let e1 :=
      if user ∈ e.members then
        (check_join_enabled { e with members := e.members.erase user })
      else e
    if user ∈ e1.maybe then { e1 with maybe := e1.maybe.erase user }
    else { e1 with maybe := e1.maybe ++ [user] }

/-- Embeds `PlayerClassSelect.callback`: reject at capacity; otherwise drop the user
from `maybe` if present, enrol them in `members` if not already there, and
recompute the button.  The `player_class` write goes to the external member
config store and carries no event state. -/
def selectOption (e : Event) (user : Nat) : Event :=
  if e.atCapacity then e
  else
    let e1 := if user ∈ e.maybe then { e with maybe := e.maybe.erase user } else e
    let e2 := if user ∉ e1.members then { e1 with members := e1.members ++ [user] } else e1
    e2.check_join_enabled

/-- Embeds `Event.mention`: `members = self.members; if include_maybe: members += self.maybe`.
The augmented assignment extends the list in place through the alias, so the
event's `members` field itself grows.  The returned first component is the
list of ids that `humanize_list` formats (string rendering is external). -/
def mention (e : Event) (include_maybe : Bool) : List Nat × Event :=
  if include_maybe then
    let members := e.members ++ e.maybe
    (members, { e with members := members })
  else (e.members, e)

end Event

/-- One user interaction on an event, tagged by which UI callback fires. -/
inductive Interaction where
  | join (user : Nat)
  | leave (user : Nat)
  | maybeJoin (user : Nat)
  | selectOption (user : Nat)
  deriving DecidableEq, Repr

/-- Dispatch one interaction to its callback. -/
def applyInteraction (e : Event) : Interaction → Event
  | .join u => e.join u
  | .leave u => e.leave u
  | .maybeJoin u => e.maybeJoin u
  | .selectOption u => e.selectOption u

/-- Run a sequence of interactions in order. -/
def applyInteractions (e : Event) (ops : List Interaction) : Event :=
  ops.foldl applyInteraction e

/-- Whether an interaction is a plain join or leave (claim C1 quantifies
over join/leave sequences only). -/
def Interaction.isJoinLeave : Interaction → Bool
  | .join _ => true
  | .leave _ => true
  | _ => false

/-!
## The `TIME_RE` duration scanner

`TIME_RE` is an ordered alternation of five branches, one per time unit:
`((?P<weeks>\d+?)\s?(weeks?|w)) | ((?P<days>\d+?)\s?(days?|d)) |
 ((?P<hours>\d+?)\s?(hours?|hrs|hr?)) | ((?P<minutes>\d+?)\s?(minutes?|mins?|m(?!o))) |
 ((?P<seconds>\d+?)\s?(seconds?|secs?|s))`, compiled case-insensitively.
`re.finditer` scans left to right, takes the leftmost match (branches tried
in order; `\d+?` is lazy, so the shortest digit run whose continuation
matches wins; `\s?` is greedy), and resumes after the end of each match.
The model lower-cases the text first (the inputs of interest are ASCII) and
follows that operational semantics literally.
-/

/-- The five named groups of `TIME_RE`. -/
inductive TimeUnit where
  | weeks | days | hours | minutes | seconds
  deriving DecidableEq, Repr

/-- ASCII lower-casing, for the `re.I` flag. -/
def lowerChar (c : Char) : Char :=
  if 'A' ≤ c ∧ c ≤ 'Z' then Char.ofNat (c.toNat + 32) else c

/-- Lower-case a character list. -/
def lowerList (l : List Char) : List Char := l.map lowerChar

/-- Python `\s` on ASCII text: space, tab, newline, carriage return,
vertical tab, form feed. -/
def isPySpace (c : Char) : Bool :=
  c = ' ' || c = '\t' || c = '\n' || c = '\r' || c = '\x0b' || c = '\x0c'

/-- Match a literal character sequence, returning the rest of the input. -/
def matchLit : List Char → List Char → Option (List Char)
  | [], l => some l
  | _ :: _, [] => Option.none
  | c :: cs, d :: ds => if c = d then matchLit cs ds else Option.none

/-- First-match-wins over a list of literal alternatives (regex `a|b|...`
between literals; a greedy `s?` is expanded as the long form first). -/
def matchAlts : List (List Char) → List Char → Option (List Char)
  | [], _ => Option.none
  | a :: rest, l =>
    match matchLit a l with
    | some r => some r
    | Option.none => matchAlts rest l

/-- Group `weeks?|w`. -/
def weeksUnit (l : List Char) : Option (List Char) :=
  matchAlts ["weeks".data, "week".data, "w".data] l

/-- Group `days?|d`. -/
def daysUnit (l : List Char) : Option (List Char) :=
  matchAlts ["days".data, "day".data, "d".data] l

/-- Group `hours?|hrs|hr?`. -/
def hoursUnit (l : List Char) : Option (List Char) :=
  matchAlts ["hours".data, "hour".data, "hrs".data, "hr".data, "h".data] l

/-- Lookahead `m(?!o)`: an `m` not followed by an `o` (the source's guard against
matching "months"). -/
def mNotO : List Char → Option (List Char)
  | 'm' :: 'o' :: _ => Option.none
  | 'm' :: rest => some rest
  | _ => Option.none

/-- Group `minutes?|mins?|m(?!o)`. -/
def minutesUnit (l : List Char) : Option (List Char) :=
  match matchAlts ["minutes".data, "minute".data, "mins".data, "min".data] l with
  | some r => some r
  | Option.none => mNotO l

/-- Group `seconds?|secs?|s`. -/
def secondsUnit (l : List Char) : Option (List Char) :=
  matchAlts ["seconds".data, "second".data, "secs".data, "sec".data, "s".data] l

/-- Greedy `\s?` followed by the unit group: try consuming one whitespace
character first, fall back to the empty match. -/
def trySuffix (unit : List Char → Option (List Char)) (l : List Char) :
    Option (List Char) :=
  match l with
  | c :: r =>
    if isPySpace c then
      match unit r with
      | some rem => some rem
      | Option.none => unit l
    else unit l
  | [] => unit []

/-- Numeric value of an ASCII digit. -/
def digitVal (c : Char) : Nat := c.toNat - 48

/-- Lazy `\d+?` followed by `\s?(unit)`: consume digits one at a time
(shortest first), after each digit trying the suffix; fail on the first
non-digit.  `acc` is the value of the digits consumed so far. -/
def branchFrom (unit : List Char → Option (List Char)) :
    Nat → List Char → Option (Nat × List Char)
  | _, [] => Option.none
  | acc, c :: r =>
    if c.isDigit then
      let acc1 := acc * 10 + digitVal c
      match trySuffix unit r with
      | some rem => some (acc1, rem)
      | Option.none => branchFrom unit acc1 r
    else Option.none

/-- Try the five branches of `TIME_RE` at one position, in the pattern's
order; return the captured value, its unit and the rest of the input. -/
def tryBranchesAt (l : List Char) : Option (TimeUnit × Nat × List Char) :=
  match branchFrom weeksUnit 0 l with
  | some (v, rem) => some (.weeks, v, rem)
  | Option.none =>
    match branchFrom daysUnit 0 l with
    | some (v, rem) => some (.days, v, rem)
    | Option.none =>
      match branchFrom hoursUnit 0 l with
      | some (v, rem) => some (.hours, v, rem)
      | Option.none =>
        match branchFrom minutesUnit 0 l with
        | some (v, rem) => some (.minutes, v, rem)
        | Option.none =>
          match branchFrom secondsUnit 0 l with
          | some (v, rem) => some (.seconds, v, rem)
          | Option.none => Option.none

/-- Embeds `re.finditer` over `TIME_RE`, fueled by the input length (every match
consumes at least one character, so the fuel never runs out; see
`findMatchesAux_fuel`). -/
def findMatchesAux : Nat → List Char → List (TimeUnit × Nat)
  | 0, _ => []
  | _ + 1, [] => []
  | fuel + 1, c :: r =>
    match tryBranchesAt (c :: r) with
    | some (u, v, rest) => (u, v) :: findMatchesAux fuel rest
    | Option.none => findMatchesAux fuel r

/-- All `TIME_RE` matches of a string, in order: unit and captured value. -/
def findMatches (s : String) : List (TimeUnit × Nat) :=
  findMatchesAux (lowerList s.data).length (lowerList s.data)

/-- The `time_data` dict built from the matches: `time_data[k] = int(v)` for
every non-empty capture, so a later match of the same unit overwrites an
earlier one. -/
structure TimeData where
  weeks : Option Nat := Option.none
  days : Option Nat := Option.none
  hours : Option Nat := Option.none
  minutes : Option Nat := Option.none
  seconds : Option Nat := Option.none
  deriving DecidableEq, Repr

/-- The empty `time_data` dict. -/
def TimeData.empty : TimeData := {}

/-- Store one match into the dict (overwriting the unit's previous value). -/
def TimeData.set (td : TimeData) : TimeUnit × Nat → TimeData
  | (.weeks, v) => { td with weeks := some v }
  | (.days, v) => { td with days := some v }
  | (.hours, v) => { td with hours := some v }
  | (.minutes, v) => { td with minutes := some v }
  | (.seconds, v) => { td with seconds := some v }

/-- Python truthiness of the dict: empty iff no key was ever set. -/
def TimeData.isEmpty (td : TimeData) : Bool :=
  td.weeks.isNone && td.days.isNone && td.hours.isNone && td.minutes.isNone &&
    td.seconds.isNone

/-- The dict `time_data` accumulated over `TIME_RE.finditer(self.event)`. -/
def timeData (s : String) : TimeData :=
  (findMatches s).foldl TimeData.set TimeData.empty

/-- Embeds `timedelta(**time_data).total_seconds()`: absent units default to 0. -/
def TimeData.totalSeconds (td : TimeData) : Nat :=
  604800 * td.weeks.getD 0 + 86400 * td.days.getD 0 + 3600 * td.hours.getD 0 +
    60 * td.minutes.getD 0 + td.seconds.getD 0

/-- Seconds per unit. -/
def TimeUnit.seconds' : TimeUnit → Nat
  | .weeks => 604800
  | .days => 86400
  | .hours => 3600
  | .minutes => 60
  | .seconds => 1

/-- Modelled from the spec: "All matched components are summed (weeks, days,
hours, minutes, seconds) and added to the current UTC instant" — the total
duration obtained by summing EVERY match (used to compare the claim's words
with the code's last-match-per-unit dict). -/
def sumOfAllMatches (s : String) : Nat :=
  (findMatches s).foldl (fun a p => a + p.1.seconds' * p.2) 0

/-- Python `sub in s`: does `pat` occur as a contiguous run of `l`? -/
def containsSub (pat : List Char) : List Char → Bool
  | [] => (matchLit pat []).isSome
  | l@(_ :: r) => (matchLit pat l).isSome || containsSub pat r

/-- Embeds `"tomorrow" in self.event.lower()`. -/
def containsTomorrow (s : String) : Bool :=
  containsSub "tomorrow".data (lowerList s.data)

namespace Event

/-- Embeds `Event.start_time`.  `fuzzyParse` stands for
`parser.parse(..., fuzzy_with_tokens=True, tzinfos=...)` from `dateutil`
(external): `.ok` is a successful parse (the returned `datetime`'s
timestamp), `.error` is any raised exception, which the source catches and
logs at debug level.  `now` is `datetime.now(timezone.utc).timestamp()`.
The source's `date.replace(tzinfo=timezone.utc)` discards its result and is
a no-op.  Returns the resolved value and the event (with `start` cached on
success). -/
def start_time (fuzzyParse : String → Except Unit ℚ) (now : ℚ) (e : Event) :
    StartField × Event :=
  match e.start with
  | .none =>
    let td := timeData e.event
    if td.isEmpty = false then
      let date := now + (td.totalSeconds : ℚ)
      (.dt date, { e with start := .dt date })
    else
      match fuzzyParse e.event with
      | .error _ => (.none, e)
      | .ok d =>
        let d1 := if containsTomorrow e.event then d + 86400 else d
        (.dt d1, { e with start := .dt d1 })
  | s => (s, e)

/-- Embeds `Event.should_remove`.  `snowflakeTime` stands for the external
`discord.utils.snowflake_time` (deterministic timestamp embedded in a
message id); `now` is `datetime.now(timezone.utc).timestamp()`.  `if
self.start:` is a truthiness test: a `datetime` is always truthy, `None`
and the loader's raw `0` are falsy. -/
def should_remove (snowflakeTime : Nat → ℚ) (now : ℚ) (e : Event)
    (seconds : Int) : Bool :=
  match e.message with
  | Option.none => true
  | some msg =>
    match e.start with
    | .dt t => decide (now > t + (seconds : ℚ))
    | _ => decide (now > snowflakeTime msg + (seconds : ℚ))

end Event

/-!
## Persistence records (`Event.from_json` / `Event.to_json`)
-/

/-- One entry of a stored `members` array: a plain user id, or the legacy
2-element `[userId, extra]` form that older versions wrote. -/
inductive RawMember where
  | plain (id : Nat)
  | legacy (id : Nat) (extra : Int)
  deriving DecidableEq, Repr

/-- Extracts `m[0]` for a legacy entry, the id itself otherwise (what the loader's
normalization loop appends to `new_members`). -/
def RawMember.firstId : RawMember → Nat
  | .plain i => i
  | .legacy i _ => i

/-- Whether an entry is in the current (plain int) format. -/
def RawMember.isPlain : RawMember → Bool
  | .plain _ => true
  | .legacy _ _ => false

/-- The persisted JSON record of one event, following the schema
`{hoster, members, event, max_slots, approver, message, channel, guild,
maybe, start, select_options}` with `start` in unix seconds. -/
structure EventRecord where
  hoster : Nat
  members : List RawMember
  event : String
  max_slots : Option Int
  approver : Option Nat
  message : Option Nat
  channel : Option Nat
  guild : Nat
  maybe : List Nat
  start : Option Int
  select_options : List (String × String)
  deriving DecidableEq, Repr

/-- Well-formed record: the guild field holds a real (nonzero) guild id and
every `members` entry is in the current plain-int schema format. -/
def EventRecord.WellFormed (r : EventRecord) : Prop :=
  r.guild ≠ 0 ∧ ∀ m ∈ r.members, m.isPlain = true

instance (r : EventRecord) : Decidable r.WellFormed := by
  unfold EventRecord.WellFormed; infer_instance

/-- Embeds `Event.from_json`.  Normalizes legacy member entries to their first
element; `if start:` converts only a truthy stored value to a `datetime`
(a stored `0` is left as the raw int); `if not guild:` resolves the guild
through the external chat client's channel lookup, which is outside this
core — that branch is modelled as `Option.none`. -/
def Event.from_json (r : EventRecord) : Option Event :=
  if r.guild = 0 then Option.none
  else
    some
      { hoster := r.hoster
        members := r.members.map RawMember.firstId
        event := r.event
        max_slots := r.max_slots
        approver := r.approver
        message := r.message
        channel := r.channel
        guild := r.guild
        maybe := r.maybe
        start :=
          match r.start with
          | Option.none => .none
          | some t => if t = 0 then .raw else .dt (t : ℚ)
        select_options := r.select_options
        joinDisabled := false }

/-- Python `int()` applied to a timestamp: truncation toward zero. -/
def ratTruncToInt (q : ℚ) : Int := if 0 ≤ q then Int.floor q else -Int.floor (-q)

/-- Embeds `Event.to_json`.  `int(self.start.timestamp()) if self.start is not None
else None`: on the loader's raw (non-`datetime`) start value the attribute
access `.timestamp` raises `AttributeError`, modelled as `Option.none`. -/
def Event.to_json (e : Event) : Option EventRecord :=
  match e.start with
  | .raw => Option.none
  | .none =>
    some
      { hoster := e.hoster, members := e.members.map RawMember.plain,
        event := e.event, max_slots := e.max_slots, approver := e.approver,
        message := e.message, channel := e.channel, guild := e.guild,
        maybe := e.maybe, start := Option.none,
        select_options := e.select_options }
  | .dt t =>
    some
      { hoster := e.hoster, members := e.members.map RawMember.plain,
        event := e.event, max_slots := e.max_slots, approver := e.approver,
        message := e.message, channel := e.channel, guild := e.guild,
        maybe := e.maybe, start := some (ratTruncToInt t),
        select_options := e.select_options }

/-- Composes `serialize(deserialize(x))`: load a record and store it again.  The
result is `Option.none` when either direction fails. -/
def roundTrip (r : EventRecord) : Option EventRecord :=
  (Event.from_json r).bind Event.to_json

/-- The spec's membership invariant: no user id is in both `members` and
`maybe`. -/
def MMDisjoint (e : Event) : Prop := ∀ u, u ∈ e.members → u ∉ e.maybe

/-!
## Concrete instances used by witnesses and counterexamples
-/

/-- A neutral concrete event used to instantiate witnesses. -/
def sampleEvent : Event :=
  { hoster := 1, members := [], event := "", max_slots := Option.none,
    approver := Option.none, message := some 900, channel := some 90, guild := 10,
    maybe := [], start := .none, select_options := [], joinDisabled := false }

/-- An event with cap 2 and two members, for the C1 witness. -/
def eventCap2 : Event := { sampleEvent with max_slots := some 2, members := [7, 8] }

/-- An event whose cap is the set-but-falsy value 0. -/
def eventCap0 : Event := { sampleEvent with max_slots := some 0 }

def eventDisj : Event := { sampleEvent with members := [2, 3], maybe := [4] }

def eventDupMaybe : Event := { sampleEvent with maybe := [5, 5] }

instance (e : Event) : Decidable (MMDisjoint e) := by
  unfold MMDisjoint; infer_instance

def eventMember2 : Event := { sampleEvent with members := [2] }

def sampleRecord : EventRecord :=
  { hoster := 1, members := [.plain 2, .plain 3], event := "raid 2d",
    max_slots := some 5, approver := Option.none, message := some 99,
    channel := some 7, guild := 11, maybe := [4], start := some 1700000000,
    select_options := [("tank", "T")] }

def recStart0 : EventRecord := { sampleRecord with start := some 0 }

def recLegacy : EventRecord := { sampleRecord with members := [.legacy 5 77] }

def eventTwoDays : Event := { sampleEvent with event := "event in 2 days" }

def eventTwoThreeDays : Event := { sampleEvent with event := "2d 3d" }

def eventStarted : Event := { sampleEvent with start := .dt 6400 }

def eventFull : Event :=
  { sampleEvent with max_slots := some 2, members := [2, 3], maybe := [4] }

def eventOverCap : Event :=
  { sampleEvent with members := [2], maybe := [3], max_slots := some 1 }

/-!
## Helper lemmas
-/

/-- The method `check_join_enabled` only ever assigns the join button's flag. -/
theorem check_join_enabled_spec (e : Event) :
    ∃ b, e.check_join_enabled = { e with joinDisabled := b } := ⟨_, rfl⟩

theorem check_join_enabled_members (e : Event) :
    e.check_join_enabled.members = e.members := rfl

theorem check_join_enabled_maybe (e : Event) :
    e.check_join_enabled.maybe = e.maybe := rfl

theorem check_join_enabled_max_slots (e : Event) :
    e.check_join_enabled.max_slots = e.max_slots := rfl

theorem check_join_enabled_hoster (e : Event) :
    e.check_join_enabled.hoster = e.hoster := rfl


theorem check_join_enabled_start (e : Event) :
    e.check_join_enabled.start = e.start := rfl

theorem check_join_enabled_joinDisabled_zero (e : Event) (h : e.max_slots = some 0) :
    e.check_join_enabled.joinDisabled = e.joinDisabled := by
  unfold Event.check_join_enabled
  simp [h]

/-- Case description of `join`: duplicate rejection, capacity rejection, or
append (with or without removal from `maybe`). -/
theorem join_cases (e : Event) (u : Nat) :
    (u ∈ e.members ∧ e.join u = e) ∨
    (u ∉ e.members ∧ e.atCapacity = true ∧ e.join u = e) ∨
    (u ∉ e.members ∧ e.atCapacity = false ∧ u ∈ e.maybe ∧
      e.join u = Event.check_join_enabled
        { e with members := e.members ++ [u], maybe := e.maybe.erase u }) ∨
    (u ∉ e.members ∧ e.atCapacity = false ∧ u ∉ e.maybe ∧
      e.join u = Event.check_join_enabled { e with members := e.members ++ [u] }) := by
  by_cases h1 : u ∈ e.members
  · exact Or.inl ⟨h1, by unfold Event.join; rw [if_pos h1]⟩
  · by_cases h2 : e.atCapacity = true
    · exact Or.inr (Or.inl ⟨h1, h2, by unfold Event.join; rw [if_neg h1, if_pos h2]⟩)
    · by_cases h3 : u ∈ e.maybe
      · refine Or.inr (Or.inr (Or.inl ⟨h1, by simpa using h2, h3, ?_⟩))
        unfold Event.join
        rw [if_neg h1, if_neg h2, if_pos h3]
      · refine Or.inr (Or.inr (Or.inr ⟨h1, by simpa using h2, h3, ?_⟩))
        unfold Event.join
        rw [if_neg h1, if_neg h2, if_neg h3]

theorem leave_cases (e : Event) (u : Nat) :
    (u = e.hoster ∧ e.leave u = e) ∨
    (u ≠ e.hoster ∧ u ∉ e.members ∧ e.leave u = e) ∨
    (u ≠ e.hoster ∧ u ∈ e.members ∧ u ∈ e.maybe ∧
      e.leave u = Event.check_join_enabled
        { e with members := e.members.erase u, maybe := e.maybe.erase u }) ∨
    (u ≠ e.hoster ∧ u ∈ e.members ∧ u ∉ e.maybe ∧
      e.leave u = Event.check_join_enabled { e with members := e.members.erase u }) := by
  by_cases h1 : u = e.hoster
  · exact Or.inl ⟨h1, by unfold Event.leave; rw [if_pos h1]⟩
  · by_cases h2 : u ∈ e.members
    · by_cases h3 : u ∈ e.maybe
      · refine Or.inr (Or.inr (Or.inl ⟨h1, h2, h3, ?_⟩))
        unfold Event.leave
        rw [if_neg h1, if_neg (not_not_intro h2), if_pos h2]
        dsimp only
        rw [if_pos h3]
      · refine Or.inr (Or.inr (Or.inr ⟨h1, h2, h3, ?_⟩))
        unfold Event.leave
        rw [if_neg h1, if_neg (not_not_intro h2), if_pos h2]
        dsimp only
        rw [if_neg h3]
    · exact Or.inr (Or.inl ⟨h1, h2, by
        unfold Event.leave; rw [if_neg h1, if_pos h2]⟩)

theorem maybeJoin_cases (e : Event) (u : Nat) :
    (u = e.hoster ∧ e.maybeJoin u = e) ∨
    (u ≠ e.hoster ∧ u ∈ e.members ∧ u ∈ e.maybe ∧
      e.maybeJoin u = { (Event.check_join_enabled { e with members := e.members.erase u }) with
        maybe := e.maybe.erase u }) ∨
    (u ≠ e.hoster ∧ u ∈ e.members ∧ u ∉ e.maybe ∧
      e.maybeJoin u = { (Event.check_join_enabled { e with members := e.members.erase u }) with
        maybe := e.maybe ++ [u] }) ∨
    (u ≠ e.hoster ∧ u ∉ e.members ∧ u ∈ e.maybe ∧
      e.maybeJoin u = { e with maybe := e.maybe.erase u }) ∨
    (u ≠ e.hoster ∧ u ∉ e.members ∧ u ∉ e.maybe ∧
      e.maybeJoin u = { e with maybe := e.maybe ++ [u] }) := by
  by_cases h1 : u = e.hoster
  · exact Or.inl ⟨h1, by unfold Event.maybeJoin; rw [if_pos h1]⟩
  · by_cases h2 : u ∈ e.members
    · by_cases h3 : u ∈ e.maybe
      · refine Or.inr (Or.inl ⟨h1, h2, h3, ?_⟩)
        unfold Event.maybeJoin
        rw [if_neg h1, if_pos h2]
        rw [if_pos (show u ∈ (Event.check_join_enabled
          { e with members := e.members.erase u }).maybe from h3)]
        rfl
      · refine Or.inr (Or.inr (Or.inl ⟨h1, h2, h3, ?_⟩))
        unfold Event.maybeJoin
        rw [if_neg h1, if_pos h2]
        rw [if_neg (show u ∉ (Event.check_join_enabled
          { e with members := e.members.erase u }).maybe from h3)]
        rfl
    · by_cases h3 : u ∈ e.maybe
      · refine Or.inr (Or.inr (Or.inr (Or.inl ⟨h1, h2, h3, ?_⟩)))
        unfold Event.maybeJoin
        rw [if_neg h1, if_neg h2, if_pos h3]
      · refine Or.inr (Or.inr (Or.inr (Or.inr ⟨h1, h2, h3, ?_⟩)))
        unfold Event.maybeJoin
        rw [if_neg h1, if_neg h2, if_neg h3]

theorem selectOption_cases (e : Event) (u : Nat) :
    (e.atCapacity = true ∧ e.selectOption u = e) ∨
    (e.atCapacity = false ∧ u ∈ e.maybe ∧ u ∈ e.members ∧
      e.selectOption u = Event.check_join_enabled { e with maybe := e.maybe.erase u }) ∨
    (e.atCapacity = false ∧ u ∈ e.maybe ∧ u ∉ e.members ∧
      e.selectOption u = Event.check_join_enabled
        { e with maybe := e.maybe.erase u, members := e.members ++ [u] }) ∨
    (e.atCapacity = false ∧ u ∉ e.maybe ∧ u ∈ e.members ∧
      e.selectOption u = Event.check_join_enabled e) ∨
    (e.atCapacity = false ∧ u ∉ e.maybe ∧ u ∉ e.members ∧
      e.selectOption u = Event.check_join_enabled { e with members := e.members ++ [u] }) := by
  by_cases h1 : e.atCapacity = true
  · exact Or.inl ⟨h1, by unfold Event.selectOption; rw [if_pos h1]⟩
  · by_cases h2 : u ∈ e.maybe
    · by_cases h3 : u ∈ e.members
      · refine Or.inr (Or.inl ⟨by simpa using h1, h2, h3, ?_⟩)
        unfold Event.selectOption
        rw [if_neg h1, if_pos h2]
        dsimp only
        rw [if_neg (not_not_intro h3)]
      · refine Or.inr (Or.inr (Or.inl ⟨by simpa using h1, h2, h3, ?_⟩))
        unfold Event.selectOption
        rw [if_neg h1, if_pos h2]
        dsimp only
        rw [if_pos h3]
    · by_cases h3 : u ∈ e.members
      · refine Or.inr (Or.inr (Or.inr (Or.inl ⟨by simpa using h1, h2, h3, ?_⟩)))
        unfold Event.selectOption
        rw [if_neg h1, if_neg h2]
        dsimp only
        rw [if_neg (not_not_intro h3)]
      · refine Or.inr (Or.inr (Or.inr (Or.inr ⟨by simpa using h1, h2, h3, ?_⟩)))
        unfold Event.selectOption
        rw [if_neg h1, if_neg h2]
        dsimp only
        rw [if_pos h3]

/-- Operation `join` preserves `max_slots`. -/
theorem join_max_slots (e : Event) (u : Nat) : (e.join u).max_slots = e.max_slots := by
  rcases join_cases e u with ⟨_, h⟩ | ⟨_, _, h⟩ | ⟨_, _, _, h⟩ | ⟨_, _, _, h⟩ <;> rw [h] <;> rfl

/-- Operation `leave` preserves `max_slots`. -/
theorem leave_max_slots (e : Event) (u : Nat) : (e.leave u).max_slots = e.max_slots := by
  rcases leave_cases e u with ⟨_, h⟩ | ⟨_, _, h⟩ | ⟨_, _, _, h⟩ | ⟨_, _, _, h⟩ <;> rw [h] <;> rfl

/-- Operation `maybeJoin` preserves `max_slots`. -/
theorem maybeJoin_max_slots (e : Event) (u : Nat) :
    (e.maybeJoin u).max_slots = e.max_slots := by
  rcases maybeJoin_cases e u with ⟨_, h⟩ | ⟨_, _, _, h⟩ | ⟨_, _, _, h⟩ | ⟨_, _, _, h⟩ |
    ⟨_, _, _, h⟩ <;> rw [h] <;> rfl

/-- Operation `selectOption` preserves `max_slots`. -/
theorem selectOption_max_slots (e : Event) (u : Nat) :
    (e.selectOption u).max_slots = e.max_slots := by
  rcases selectOption_cases e u with ⟨_, h⟩ | ⟨_, _, _, h⟩ | ⟨_, _, _, h⟩ | ⟨_, _, _, h⟩ |
    ⟨_, _, _, h⟩ <;> rw [h] <;> rfl

/-- Every interaction preserves `max_slots`. -/
theorem applyInteraction_max_slots (e : Event) (op : Interaction) :
    (applyInteraction e op).max_slots = e.max_slots := by
  cases op with
  | join u => exact join_max_slots e u
  | leave u => exact leave_max_slots e u
  | maybeJoin u => exact maybeJoin_max_slots e u
  | selectOption u => exact selectOption_max_slots e u

/-- The capacity test is truthy at a full event with a positive cap. -/
theorem atCapacity_true (e : Event) (k : Int) (hm : e.max_slots = some k) (hk : k ≠ 0)
    (hlen : (e.members.length : Int) ≥ k) : e.atCapacity = true := by
  unfold Event.atCapacity
  rw [hm]
  simp [hk, hlen]

/-- A join on an event with cap `k > 0` keeps `len(members) ≤ k`. -/
theorem join_members_bound (k : Int) (hk : 0 < k) (e : Event) (hm : e.max_slots = some k)
    (hlen : (e.members.length : Int) ≤ k) (u : Nat) :
    (((e.join u).members.length : Int)) ≤ k := by
  rcases join_cases e u with ⟨_, h⟩ | ⟨_, _, h⟩ | ⟨_, hcap, _, h⟩ | ⟨hmem, hcap, _, h⟩
  · rw [h]; exact hlen
  · rw [h]; exact hlen
  all_goals {
    rw [h, check_join_enabled_members]
    show ((e.members ++ [u]).length : Int) ≤ k
    have hlt : ¬ ((e.members.length : Int) ≥ k) := by
      intro hge
      rw [atCapacity_true e k hm (by omega) hge] at hcap
      simp at hcap
    have hlen1 : ((e.members ++ [u]).length : Int) = (e.members.length : Int) + 1 := by
      simp
    rw [hlen1]
    omega
  }

/-- A leave never grows `members`. -/
theorem leave_members_bound (k : Int) (e : Event)
    (hlen : (e.members.length : Int) ≤ k) (u : Nat) :
    (((e.leave u).members.length : Int)) ≤ k := by
  rcases leave_cases e u with ⟨_, h⟩ | ⟨_, _, h⟩ | ⟨_, _, _, h⟩ | ⟨_, _, _, h⟩
  · rw [h]; exact hlen
  · rw [h]; exact hlen
  all_goals {
    rw [h, check_join_enabled_members]
    show (((e.members.erase u).length : Int)) ≤ k
    have := (List.erase_sublist u e.members).length_le
    omega
  }

/-- Across any join/leave sequence, a positive cap bounds the member count. -/
theorem joinleave_members_bound (k : Int) (hk : 0 < k) (ops : List Interaction)
    (hops : ∀ o ∈ ops, o.isJoinLeave = true) (e : Event) (hm : e.max_slots = some k)
    (hlen : (e.members.length : Int) ≤ k) :
    ((applyInteractions e ops).members.length : Int) ≤ k := by
  induction ops generalizing e with
  | nil => exact hlen
  | cons o rest ih =>
    have ho := hops o (List.mem_cons_self o rest)
    have hrest : ∀ o' ∈ rest, o'.isJoinLeave = true := fun o' h' =>
      hops o' (List.mem_cons_of_mem _ h')
    show ((applyInteractions (applyInteraction e o) rest).members.length : Int) ≤ k
    refine ih hrest _ ?_ ?_
    · rw [applyInteraction_max_slots]; exact hm
    · cases o with
      | join u => exact join_members_bound k hk e hm hlen u
      | leave u => exact leave_members_bound k e hlen u
      | maybeJoin u => simp [Interaction.isJoinLeave] at ho
      | selectOption u => simp [Interaction.isJoinLeave] at ho

/-- C1 (amended): on an event whose `maxSlots` is set to a positive value
`k` and whose member count starts within the cap, `len(members) ≤ k` holds
after every sequence of completed join/leave operations; and a join
arriving when `len(members) ≥ k` is rejected outright — the event, in
particular its `members` list, is left unchanged (no truncation).  (The
claim as frozen fails for `maxSlots = 0`, which Python truthiness treats
as no cap: see the counterexample.) -/
theorem c1_capacity_invariant (k : Int) (hk : 0 < k) (e : Event)
    (hm : e.max_slots = some k) (hlen : (e.members.length : Int) ≤ k)
    (ops : List Interaction) (hops : ∀ o ∈ ops, o.isJoinLeave = true) :
    ((applyInteractions e ops).members.length : Int) ≤ k ∧
      ∀ u, (e.members.length : Int) ≥ k → e.join u = e := by
  constructor
  · exact joinleave_members_bound k hk ops hops e hm hlen
  · intro u hge
    rcases join_cases e u with ⟨_, h⟩ | ⟨_, _, h⟩ | ⟨_, hcap, _, _⟩ | ⟨_, hcap, _, _⟩
    · exact h
    · exact h
    all_goals rw [atCapacity_true e k hm (by omega) hge] at hcap; simp at hcap

/-- C1 witness: cap 2, starting from two members, a leave and two joins. -/
theorem c1_capacity_invariant_witness :
    ((applyInteractions eventCap2 [.leave 7, .join 3, .join 4]).members.length : Int) ≤ 2 ∧
      ∀ u, ((eventCap2.members.length : Int)) ≥ 2 → eventCap2.join u = eventCap2 :=
  c1_capacity_invariant 2 (by decide) eventCap2 rfl (by decide) _ (by decide)

/-- C1 counterexample: `maxSlots = 0` is "set", the empty event satisfies
`len(members) ≤ 0`, yet one completed join (a join/leave operation) leaves
the bound violated — the capacity test `self.max_slots and ...` is falsy at
`0`, so the join is accepted. -/
theorem c1_counterexample :
    eventCap0.max_slots = some 0 ∧ ((eventCap0.members.length : Int) ≤ 0) ∧
    Interaction.isJoinLeave (.join 2) = true ∧
    ¬ (((applyInteractions eventCap0 [.join 2]).members.length : Int) ≤ 0) := by
  refine ⟨rfl, by decide, rfl, ?_⟩
  decide


/-- C2 (amended): when neither list holds a duplicate entry (as join-order
slot semantics requires) and the two lists are disjoint, any single
completed interaction — join, leave, maybe-join or class-select — leaves
them disjoint: no user id is in both `members` and `maybe` afterwards.
(As frozen, with disjointness as the only precondition, the claim fails on
a `maybe` list holding the same id twice: see the counterexample.) -/
theorem c2_members_maybe_disjoint (e : Event) (op : Interaction)
    (hmem : e.members.Nodup) (hmay : e.maybe.Nodup) (hdisj : MMDisjoint e) :
    MMDisjoint (applyInteraction e op) := by
  cases op with
  | join u0 =>
    show MMDisjoint (e.join u0)
    rcases join_cases e u0 with ⟨_, h⟩ | ⟨_, _, h⟩ | ⟨_, _, hmb, h⟩ | ⟨_, _, hmb, h⟩
    · rw [h]; exact hdisj
    · rw [h]; exact hdisj
    · rw [h]
      intro x hx hx'
      replace hx : x ∈ e.members ++ [u0] := hx
      replace hx' : x ∈ e.maybe.erase u0 := hx'
      rcases List.mem_append.mp hx with hxm | hxu
      · exact hdisj x hxm (List.mem_of_mem_erase hx')
      · rw [List.mem_singleton.mp hxu] at hx'
        exact ((hmay.mem_erase_iff.mp hx').1 rfl).elim
    · rw [h]
      intro x hx hx'
      replace hx : x ∈ e.members ++ [u0] := hx
      replace hx' : x ∈ e.maybe := hx'
      rcases List.mem_append.mp hx with hxm | hxu
      · exact hdisj x hxm hx'
      · rw [List.mem_singleton.mp hxu] at hx'
        exact hmb hx'
  | leave u0 =>
    show MMDisjoint (e.leave u0)
    rcases leave_cases e u0 with ⟨_, h⟩ | ⟨_, _, h⟩ | ⟨_, _, _, h⟩ | ⟨_, _, _, h⟩
    · rw [h]; exact hdisj
    · rw [h]; exact hdisj
    · rw [h]
      intro x hx hx'
      replace hx : x ∈ e.members.erase u0 := hx
      replace hx' : x ∈ e.maybe.erase u0 := hx'
      exact hdisj x (List.mem_of_mem_erase hx) (List.mem_of_mem_erase hx')
    · rw [h]
      intro x hx hx'
      replace hx : x ∈ e.members.erase u0 := hx
      replace hx' : x ∈ e.maybe := hx'
      exact hdisj x (List.mem_of_mem_erase hx) hx'
  | maybeJoin u0 =>
    show MMDisjoint (e.maybeJoin u0)
    rcases maybeJoin_cases e u0 with ⟨_, h⟩ | ⟨_, hm2, hm3, _⟩ | ⟨_, hm2, _, h⟩ |
      ⟨_, _, _, h⟩ | ⟨_, hm2, hm3, h⟩
    · rw [h]; exact hdisj
    · exact (hdisj u0 hm2 hm3).elim
    · rw [h]
      intro x hx hx'
      replace hx : x ∈ e.members.erase u0 := hx
      replace hx' : x ∈ e.maybe ++ [u0] := hx'
      have hxm := List.mem_of_mem_erase hx
      rcases List.mem_append.mp hx' with hxa | hxu
      · exact hdisj x hxm hxa
      · rw [List.mem_singleton.mp hxu] at hx
        exact ((hmem.mem_erase_iff.mp hx).1 rfl).elim
    · rw [h]
      intro x hx hx'
      replace hx : x ∈ e.members := hx
      replace hx' : x ∈ e.maybe.erase u0 := hx'
      exact hdisj x hx (List.mem_of_mem_erase hx')
    · rw [h]
      intro x hx hx'
      replace hx : x ∈ e.members := hx
      replace hx' : x ∈ e.maybe ++ [u0] := hx'
      rcases List.mem_append.mp hx' with hxa | hxu
      · exact hdisj x hx hxa
      · rw [List.mem_singleton.mp hxu] at hx
        exact hm2 hx
  | selectOption u0 =>
    show MMDisjoint (e.selectOption u0)
    rcases selectOption_cases e u0 with ⟨_, h⟩ | ⟨_, _, _, h⟩ | ⟨_, hm2, _, h⟩ |
      ⟨_, _, _, h⟩ | ⟨_, hm2, _, h⟩
    · rw [h]; exact hdisj
    · rw [h]
      intro x hx hx'
      replace hx : x ∈ e.members := hx
      replace hx' : x ∈ e.maybe.erase u0 := hx'
      exact hdisj x hx (List.mem_of_mem_erase hx')
    · rw [h]
      intro x hx hx'
      replace hx : x ∈ e.members ++ [u0] := hx
      replace hx' : x ∈ e.maybe.erase u0 := hx'
      rcases List.mem_append.mp hx with hxm | hxu
      · exact hdisj x hxm (List.mem_of_mem_erase hx')
      · rw [List.mem_singleton.mp hxu] at hx'
        exact ((hmay.mem_erase_iff.mp hx').1 rfl).elim
    · rw [h]
      intro x hx hx'
      replace hx : x ∈ e.members := hx
      replace hx' : x ∈ e.maybe := hx'
      exact hdisj x hx hx'
    · rw [h]
      intro x hx hx'
      replace hx : x ∈ e.members ++ [u0] := hx
      replace hx' : x ∈ e.maybe := hx'
      rcases List.mem_append.mp hx with hxm | hxu
      · exact hdisj x hxm hx'
      · rw [List.mem_singleton.mp hxu] at hx'
        exact hm2 hx'

/-- C2 witness: a maybe-join by a current member on a duplicate-free,
disjoint event keeps the lists disjoint. -/
theorem c2_members_maybe_disjoint_witness :
    MMDisjoint (applyInteraction eventDisj (.maybeJoin 2)) :=
  c2_members_maybe_disjoint eventDisj (.maybeJoin 2) (by decide) (by decide) (by decide)

/-- C2 counterexample: `members = []` and `maybe = [5, 5]` are disjoint,
yet after user 5's completed join (which removes only one copy from
`maybe` before appending to `members`) the id 5 is in both lists. -/
theorem c2_counterexample :
    MMDisjoint eventDupMaybe ∧
    5 ∈ (applyInteraction eventDupMaybe (.join 5)).members ∧
    5 ∈ (applyInteraction eventDupMaybe (.join 5)).maybe := by
  refine ⟨?_, ?_, ?_⟩ <;> decide

/-- C3 (amended): for a non-hoster user who is in neither `members` nor
`maybe`, two consecutive maybe-joins with nothing in between restore both
lists exactly.  (As frozen — for every event state — the claim fails for a
user currently in `members`: the first call moves them to `maybe`, the
second only removes them from `maybe`, so they end in neither list; see
the counterexample.) -/
theorem c3_maybe_toggle (e : Event) (u : Nat) (hh : u ≠ e.hoster)
    (hm : u ∉ e.members) (hb : u ∉ e.maybe) :
    ((e.maybeJoin u).maybeJoin u).members = e.members ∧
    ((e.maybeJoin u).maybeJoin u).maybe = e.maybe := by
  rcases maybeJoin_cases e u with ⟨heq, _⟩ | ⟨_, hmem, _, _⟩ | ⟨_, hmem, _, _⟩ |
    ⟨_, _, hmb, _⟩ | ⟨_, _, _, h1⟩
  · exact (hh heq).elim
  · exact (hm hmem).elim
  · exact (hm hmem).elim
  · exact (hb hmb).elim
  · rw [h1]
    rcases maybeJoin_cases ({ e with maybe := e.maybe ++ [u] } : Event) u with
      ⟨heq, _⟩ | ⟨_, hmem, _, _⟩ | ⟨_, hmem, _, _⟩ | ⟨_, _, _, h2⟩ | ⟨_, _, hmb, _⟩
    · exact (hh heq).elim
    · exact (hm hmem).elim
    · exact (hm hmem).elim
    · rw [h2]
      refine ⟨rfl, ?_⟩
      show (e.maybe ++ [u]).erase u = e.maybe
      rw [List.erase_append_right _ hb, List.erase_cons_head, List.append_nil]
    · exact (hmb (List.mem_append_right _ (List.mem_singleton_self u))).elim

/-- C3 witness: user 5 on the empty sample event. -/
theorem c3_maybe_toggle_witness :
    ((sampleEvent.maybeJoin 5).maybeJoin 5).members = sampleEvent.members ∧
    ((sampleEvent.maybeJoin 5).maybeJoin 5).maybe = sampleEvent.maybe :=
  c3_maybe_toggle sampleEvent 5 (by decide) (by decide) (by decide)

/-- C3 counterexample: non-hoster user 2 starts as a member; after two
consecutive maybe-joins the `members` list is `[]`, not `[2]` — the double
toggle does not restore the original membership state. -/
theorem c3_counterexample :
    (2 : Nat) ≠ eventMember2.hoster ∧
    ((eventMember2.maybeJoin 2).maybeJoin 2).members ≠ eventMember2.members := by
  refine ⟨by decide, by decide⟩

theorem ratTruncToInt_intCast (t : Int) : ratTruncToInt (t : ℚ) = t := by
  unfold ratTruncToInt
  split_ifs with h
  · exact_mod_cast Int.floor_intCast t
  · rw [← Int.cast_neg, Int.floor_intCast]
    omega

theorem map_firstId_plain (ms : List RawMember) (h : ∀ m ∈ ms, m.isPlain = true) :
    (ms.map RawMember.firstId).map RawMember.plain = ms := by
  induction ms with
  | nil => rfl
  | cons m rest ih =>
    have hm := h m (List.mem_cons_self m rest)
    have hr := ih (fun x hx => h x (List.mem_cons_of_mem _ hx))
    cases m with
    | plain i => simpa [RawMember.firstId] using hr
    | legacy i x => simp [RawMember.isPlain] at hm

/-- C4 (amended): for every well-formed record whose stored `start` is not
the falsy timestamp `0`, `serialize(deserialize(x)) = x`; and a legacy
2-element member entry `[userId, extra]` deserializes to `userId` alone,
`extra` discarded.  (As frozen the claim fails at `start = 0`: `if start:`
skips the `datetime` conversion, so the loaded event carries a raw int and
re-serialization crashes; see the counterexample.) -/
theorem c4_roundtrip (r : EventRecord) (hwf : r.WellFormed) (hs : r.start ≠ some 0)
    (r2 : EventRecord) (hg2 : r2.guild ≠ 0) (pre post : List RawMember)
    (uid : Nat) (extra : Int)
    (hmem : r2.members = pre ++ RawMember.legacy uid extra :: post) :
    roundTrip r = some r ∧
    ∀ e2, Event.from_json r2 = some e2 →
      e2.members = pre.map RawMember.firstId ++ uid :: post.map RawMember.firstId := by
  obtain ⟨hg, hplain⟩ := hwf
  constructor
  · obtain ⟨rh, rm, rev, rms, rap, rmsg, rch, rg, rmb, rst, rso⟩ := r
    simp only at hg hplain hs
    unfold roundTrip Event.from_json
    rw [if_neg hg]
    rw [Option.some_bind]
    cases rst with
    | none =>
      unfold Event.to_json
      simp [map_firstId_plain rm hplain]
    | some t =>
      have ht : t ≠ 0 := fun h0 => hs (by rw [h0])
      unfold Event.to_json
      dsimp only
      rw [if_neg ht]
      simp [map_firstId_plain rm hplain, ratTruncToInt_intCast]
  · intro e2 he2
    unfold Event.from_json at he2
    rw [if_neg hg2] at he2
    have he2' := Option.some.inj he2
    rw [← he2']
    dsimp only
    rw [hmem]
    simp [RawMember.firstId]

/-- C4 witness: a concrete record with a nonzero start round-trips, and a
concrete legacy entry `[5, 77]` loads as the bare id `5`. -/
theorem c4_roundtrip_witness :
    roundTrip sampleRecord = some sampleRecord ∧
    ∀ e2, Event.from_json recLegacy = some e2 →
      e2.members = List.map RawMember.firstId [] ++
        5 :: List.map RawMember.firstId [] :=
  c4_roundtrip sampleRecord (by decide) (by decide) recLegacy (by decide)
    [] [] 5 77 rfl

/-- C4 counterexample: the record equal to the sample but with stored
`start = 0` is schema-well-formed, yet `serialize(deserialize(x))` is not
`x`: the loader leaves the falsy `0` unconverted and serialization fails
(`AttributeError` on `int.timestamp`), so the round-trip produces no
record at all. -/
theorem c4_counterexample :
    recStart0.WellFormed ∧ roundTrip recStart0 ≠ some recStart0 := by
  refine ⟨by decide, by decide⟩

theorem TimeData.set_isEmpty_false (td : TimeData) (p : TimeUnit × Nat) :
    (td.set p).isEmpty = false := by
  obtain ⟨u, v⟩ := p
  cases u <;> simp [TimeData.set, TimeData.isEmpty]

theorem foldl_set_isEmpty_false (ms : List (TimeUnit × Nat)) (td : TimeData)
    (h : td.isEmpty = false) : (ms.foldl TimeData.set td).isEmpty = false := by
  induction ms generalizing td with
  | nil => exact h
  | cons p rest ih => exact ih _ (TimeData.set_isEmpty_false td p)

/-- A scanner match makes the `time_data` dict truthy. -/
theorem timeData_isEmpty_false (s : String) (h : findMatches s ≠ []) :
    (timeData s).isEmpty = false := by
  unfold timeData
  cases hm : findMatches s with
  | nil => exact (h hm).elim
  | cons p rest =>
    show ((p :: rest).foldl TimeData.set TimeData.empty).isEmpty = false
    exact foldl_set_isEmpty_false rest _ (TimeData.set_isEmpty_false _ p)

/-- C5 (amended): whenever at least one relative-duration token matches the
grammar, the resolved start is the current UTC instant plus the sum over
units of the LAST matched value of each unit (the `time_data` dict keeps
one value per named group, later matches overwriting earlier ones), the
fuzzy-date branch is never consulted, and "tomorrow" adds nothing.  (As
frozen — "the sum of all matched components" — the claim fails when one
unit matches twice, e.g. "2d 3d": see the counterexample.) -/
theorem c5_duration_branch (e : Event) (f g : String → Except Unit ℚ) (now : ℚ)
    (hstart : e.start = .none) (hmatch : findMatches e.event ≠ []) :
    (e.start_time f now).1 =
      .dt (now + (((timeData e.event).totalSeconds : ℚ))) ∧
    e.start_time f now = e.start_time g now := by
  have hne := timeData_isEmpty_false e.event hmatch
  have key : ∀ h' : String → Except Unit ℚ, e.start_time h' now =
      (.dt (now + (((timeData e.event).totalSeconds : ℚ))),
        { e with start := .dt (now + (((timeData e.event).totalSeconds : ℚ))) }) := by
    intro h'
    unfold Event.start_time
    rw [hstart]
    dsimp only
    rw [if_pos hne]
  exact ⟨by rw [key f], by rw [key f, key g]⟩

/-- C5 witness: "event in 2 days" resolves through the duration branch,
independently of the fuzzy parser. -/
theorem c5_duration_branch_witness :
    (Event.start_time (fun _ => .error ()) 1000 eventTwoDays).1 =
      .dt (1000 + (((timeData "event in 2 days").totalSeconds : ℚ))) ∧
    Event.start_time (fun _ => .error ()) 1000 eventTwoDays =
      Event.start_time (fun _ => .ok 42) 1000 eventTwoDays :=
  c5_duration_branch eventTwoDays _ _ 1000 rfl (by decide)

/-- C5 counterexample: in "2d 3d" the days group matches twice; the spec's
"sum of all matched components" is 5 days (432000 s) but the code's dict
keeps only the last value, resolving to now + 3 days (259200 s). -/
theorem c5_counterexample :
    findMatches "2d 3d" ≠ [] ∧
    sumOfAllMatches "2d 3d" = 432000 ∧
    (timeData "2d 3d").totalSeconds = 259200 ∧
    (Event.start_time (fun _ => .error ()) 0 eventTwoThreeDays).1 =
      .dt (0 + ((259200 : Nat) : ℚ)) ∧
    (Event.start_time (fun _ => .error ()) 0 eventTwoThreeDays).1 ≠
      .dt (0 + ((sumOfAllMatches "2d 3d" : Nat) : ℚ)) := by
  have hne : (timeData "2d 3d").isEmpty = false := by decide
  have key : (Event.start_time (fun _ => .error ()) 0 eventTwoThreeDays).1 =
      .dt (0 + (((timeData "2d 3d").totalSeconds : Nat) : ℚ)) := by
    unfold Event.start_time eventTwoThreeDays sampleEvent
    dsimp only
    rw [if_pos hne]
  have h1 : (timeData "2d 3d").totalSeconds = 259200 := by decide
  have h2 : sumOfAllMatches "2d 3d" = 432000 := by decide
  refine ⟨by decide, h2, h1, ?_, ?_⟩
  · rw [key, h1]
  · rw [key, h1, h2]
    intro hdt
    have := StartField.dt.inj hdt
    norm_num at this

/-- C6: when no duration token matches and the fuzzy parse raises, the
resolution returns absent — the exception is caught, never re-raised (the
embedding returns a value in every case) — and the event is unchanged,
proceeding with no start time. -/
theorem c6_parse_failure (f : String → Except Unit ℚ) (now : ℚ) (e : Event)
    (err : Unit) (hstart : e.start = .none)
    (hmatch : (timeData e.event).isEmpty = true) (hfuzzy : f e.event = .error err) :
    e.start_time f now = (.none, e) := by
  unfold Event.start_time
  rw [hstart]
  dsimp only
  rw [if_neg (by simp [hmatch]), hfuzzy]

/-- C6 witness: the empty description with a failing fuzzy parser. -/
theorem c6_parse_failure_witness :
    Event.start_time (fun _ => .error ()) 1000 sampleEvent = (.none, sampleEvent) :=
  c6_parse_failure (fun _ => .error ()) 1000 sampleEvent () rfl (by decide) rfl

/-- C7: `should_remove(graceSeconds)` is true exactly when the event has no
message reference, or the current time exceeds `(start if set, else the
message's snowflake-derived creation time) + graceSeconds`. -/
theorem c7_should_remove (snow : Nat → ℚ) (now : ℚ) (e : Event) (s : Int)
    (hstart : e.start ≠ .raw) :
    (Event.should_remove snow now e s = true ↔
      (e.message = Option.none ∨ ∃ msg, e.message = some msg ∧
        now > (match e.start with | .dt t => t | _ => snow msg) + (s : ℚ))) := by
  unfold Event.should_remove
  cases hmsg : e.message with
  | none => simp
  | some msg =>
    cases hst : e.start with
    | none => simp
    | dt t => simp
    | raw => exact absurd hst hstart

/-- C7 witness: grace 1800 s, start 3600 s in the past (`now = 10000`,
start 6400): removal is due. -/
theorem c7_should_remove_witness :
    Event.should_remove (fun _ => 0) 10000 eventStarted 1800 = true :=
  (c7_should_remove (fun _ => 0) 10000 eventStarted 1800 (by decide)).mpr
    (Or.inr ⟨900, rfl, by norm_num [eventStarted]⟩)

/-- C8: every rejected interaction — duplicate join, join at capacity,
leave by a non-hoster who is not a member, and maybe-join by the hoster —
returns the event completely unchanged (the record equality covers
`members`, `maybe` and every other field). -/
theorem c8_rejections_no_mutation (e : Event) (u : Nat) :
    (u ∈ e.members → e.join u = e) ∧
    (e.atCapacity = true → e.join u = e) ∧
    (u ≠ e.hoster → u ∉ e.members → e.leave u = e) ∧
    e.maybeJoin e.hoster = e := by
  refine ⟨?_, ?_, ?_, ?_⟩
  · intro h
    unfold Event.join
    rw [if_pos h]
  · intro hcap
    by_cases h1 : u ∈ e.members
    · unfold Event.join; rw [if_pos h1]
    · unfold Event.join; rw [if_neg h1, if_pos hcap]
  · intro hh hm
    unfold Event.leave
    rw [if_neg hh, if_pos hm]
  · unfold Event.maybeJoin
    rw [if_pos rfl]

/-- C8 witness: a full two-slot event; all four rejections are no-ops. -/
theorem c8_rejections_no_mutation_witness :
    (Event.join eventFull 2 = eventFull) ∧
    (Event.join eventFull 5 = eventFull) ∧
    (Event.leave eventFull 6 = eventFull) ∧
    (Event.maybeJoin eventFull eventFull.hoster = eventFull) :=
  ⟨(c8_rejections_no_mutation eventFull 2).1 (by decide),
   (c8_rejections_no_mutation eventFull 5).2.1 (by decide),
   (c8_rejections_no_mutation eventFull 6).2.2.1 (by decide) (by decide),
   (c8_rejections_no_mutation eventFull 0).2.2.2⟩

/-- C9: with a non-empty `maybe` list, `mention(include_maybe=True)`
mutates the event through the aliased in-place list extension: afterwards
`members` is the old `members` with every maybe-id appended — it is not the
list the event had before the call. -/
theorem c9_mention_mutates (e : Event) (h : e.maybe ≠ []) :
    (e.mention true).2.members = e.members ++ e.maybe ∧
    (e.mention true).2.members ≠ e.members ∧
    ∀ u ∈ e.maybe, u ∈ (e.mention true).2.members := by
  refine ⟨rfl, ?_, ?_⟩
  · intro heq
    replace heq : e.members ++ e.maybe = e.members := heq
    exact h (List.append_cancel_left (heq.trans (List.append_nil e.members).symm))
  · intro u hu
    exact List.mem_append_right _ hu

/-- C9 witness: on a one-slot event with one member and one maybe, the
mention call pushes `members` to `[2, 3]` — past `maxSlots = 1` — and id 3
now sits in both lists. -/
theorem c9_mention_mutates_witness :
    (eventOverCap.mention true).2.members = eventOverCap.members ++ eventOverCap.maybe ∧
    ¬ (((eventOverCap.mention true).2.members.length : Int) ≤ 1) ∧
    3 ∈ (eventOverCap.mention true).2.members ∧
    3 ∈ (eventOverCap.mention true).2.maybe :=
  ⟨(c9_mention_mutates eventOverCap (by decide)).1, by decide, by decide, by decide⟩

/-- With the falsy cap `0`, a fresh join is accepted and appends. -/
theorem join_zero_cap (e : Event) (u : Nat) (h0 : e.max_slots = some 0)
    (hm : u ∉ e.members) : (e.join u).members = e.members ++ [u] := by
  have hcap : e.atCapacity = false := by
    unfold Event.atCapacity
    rw [h0]
    simp
  rcases join_cases e u with ⟨hmem, _⟩ | ⟨_, hc, _⟩ | ⟨_, _, _, h⟩ | ⟨_, _, _, h⟩
  · exact (hm hmem).elim
  · rw [hcap] at hc
    simp at hc
  · rw [h]
    rfl
  · rw [h]
    rfl

/-- With the falsy cap `0`, no single interaction touches the join flag. -/
theorem applyInteraction_joinDisabled_zero (e : Event) (op : Interaction)
    (h0 : e.max_slots = some 0) :
    (applyInteraction e op).joinDisabled = e.joinDisabled := by
  cases op with
  | join u =>
    show (e.join u).joinDisabled = e.joinDisabled
    rcases join_cases e u with ⟨_, h⟩ | ⟨_, _, h⟩ | ⟨_, _, _, h⟩ | ⟨_, _, _, h⟩
    · rw [h]
    · rw [h]
    · rw [h]
      exact check_join_enabled_joinDisabled_zero _ h0
    · rw [h]
      exact check_join_enabled_joinDisabled_zero _ h0
  | leave u =>
    show (e.leave u).joinDisabled = e.joinDisabled
    rcases leave_cases e u with ⟨_, h⟩ | ⟨_, _, h⟩ | ⟨_, _, _, h⟩ | ⟨_, _, _, h⟩
    · rw [h]
    · rw [h]
    · rw [h]
      exact check_join_enabled_joinDisabled_zero _ h0
    · rw [h]
      exact check_join_enabled_joinDisabled_zero _ h0
  | maybeJoin u =>
    show (e.maybeJoin u).joinDisabled = e.joinDisabled
    rcases maybeJoin_cases e u with ⟨_, h⟩ | ⟨_, _, _, h⟩ | ⟨_, _, _, h⟩ |
      ⟨_, _, _, h⟩ | ⟨_, _, _, h⟩
    · rw [h]
    · rw [h]
      exact check_join_enabled_joinDisabled_zero _ h0
    · rw [h]
      exact check_join_enabled_joinDisabled_zero _ h0
    · rw [h]
    · rw [h]
  | selectOption u =>
    show (e.selectOption u).joinDisabled = e.joinDisabled
    rcases selectOption_cases e u with ⟨_, h⟩ | ⟨_, _, _, h⟩ | ⟨_, _, _, h⟩ |
      ⟨_, _, _, h⟩ | ⟨_, _, _, h⟩
    · rw [h]
    · rw [h]
      exact check_join_enabled_joinDisabled_zero _ h0
    · rw [h]
      exact check_join_enabled_joinDisabled_zero _ h0
    · rw [h]
      exact check_join_enabled_joinDisabled_zero _ h0
    · rw [h]
      exact check_join_enabled_joinDisabled_zero _ h0

/-- With the falsy cap `0`, no interaction sequence touches the join flag. -/
theorem applyInteractions_joinDisabled_zero (ops : List Interaction) (e : Event)
    (h0 : e.max_slots = some 0) :
    (applyInteractions e ops).joinDisabled = e.joinDisabled := by
  induction ops generalizing e with
  | nil => rfl
  | cons o rest ih =>
    show (applyInteractions (applyInteraction e o) rest).joinDisabled = e.joinDisabled
    rw [ih _ (by rw [applyInteraction_max_slots]; exact h0),
      applyInteraction_joinDisabled_zero e o h0]

/-- With the falsy cap `0`, any number of distinct fresh users can join. -/
theorem joins_zero_cap (us : List Nat) (e : Event) (h0 : e.max_slots = some 0)
    (hnd : us.Nodup) (hfresh : ∀ x ∈ us, x ∉ e.members) :
    (applyInteractions e (us.map Interaction.join)).members = e.members ++ us := by
  induction us generalizing e with
  | nil =>
    show e.members = e.members ++ []
    rw [List.append_nil]
  | cons x rest ih =>
    obtain ⟨hxr, hndr⟩ := List.nodup_cons.mp hnd
    have hx : x ∉ e.members := hfresh x (List.mem_cons_self x rest)
    have hj := join_zero_cap e x h0 hx
    have hfresh2 : ∀ y ∈ rest, y ∉ (e.join x).members := by
      intro y hy hymem
      rw [hj] at hymem
      rcases List.mem_append.mp hymem with h1 | h2
      · exact hfresh y (List.mem_cons_of_mem _ hy) h1
      · rw [List.mem_singleton.mp h2] at hy
        exact hxr hy
    show (applyInteractions (e.join x) (rest.map Interaction.join)).members =
      e.members ++ x :: rest
    rw [ih (e.join x) (by rw [join_max_slots]; exact h0) hndr hfresh2, hj,
      List.append_assoc, List.singleton_append]
/-- C10: a cap of `0` behaves as no cap at all — the capacity tests examine
the truthiness of `max_slots`, and `0` is falsy.  A fresh user's join is
never rejected for capacity (it appends); the join control's disabled flag
is never touched by any interaction sequence; and arbitrarily many distinct
fresh users can join, growing `members` without bound. -/
theorem c10_zero_cap_uncapacitated (e : Event) (u : Nat) (us : List Nat)
    (ops : List Interaction) (h0 : e.max_slots = some 0) (hu : u ∉ e.members)
    (hnd : us.Nodup) (hfresh : ∀ x ∈ us, x ∉ e.members)
    (hflag : e.joinDisabled = false) :
    (e.join u).members = e.members ++ [u] ∧
    (applyInteractions e ops).joinDisabled = false ∧
    (applyInteractions e (us.map Interaction.join)).members = e.members ++ us := by
  refine ⟨join_zero_cap e u h0 hu, ?_, joins_zero_cap us e h0 hnd hfresh⟩
  rw [applyInteractions_joinDisabled_zero ops e h0, hflag]

/-- C10 witness: three fresh users join the zero-cap event; a mixed
interaction burst never disables the join control. -/
theorem c10_zero_cap_uncapacitated_witness :
    (eventCap0.join 2).members = eventCap0.members ++ [2] ∧
    (applyInteractions eventCap0
      [.join 5, .maybeJoin 6, .selectOption 7]).joinDisabled = false ∧
    (applyInteractions eventCap0
      ([5, 6, 7].map Interaction.join)).members = eventCap0.members ++ [5, 6, 7] :=
  c10_zero_cap_uncapacitated eventCap0 2 [5, 6, 7]
    [.join 5, .maybeJoin 6, .selectOption 7] rfl (by decide) (by decide)
    (by decide) rfl


theorem matchLit_length (lit : List Char) :
    ∀ l r : List Char, matchLit lit l = some r → r.length + lit.length = l.length := by
  induction lit with
  | nil =>
    intro l r h
    unfold matchLit at h
    injection h with h'
    subst h'
    simp
  | cons c cs ih =>
    intro l r h
    cases l with
    | nil => exact absurd h (by simp [matchLit])
    | cons d ds =>
      unfold matchLit at h
      split_ifs at h with hc
      · have := ih ds r h
        simp only [List.length_cons]
        omega

theorem matchAlts_length (alts : List (List Char)) (halts : ∀ a ∈ alts, a ≠ []) :
    ∀ l r : List Char, matchAlts alts l = some r → r.length < l.length := by
  induction alts with
  | nil =>
    intro l r h
    simp [matchAlts] at h
  | cons a rest ih =>
    intro l r h
    unfold matchAlts at h
    cases hma : matchLit a l with
    | some r' =>
      rw [hma] at h
      have h' := Option.some.inj h
      subst h'
      have hlen := matchLit_length a l r' hma
      have hpos : 0 < a.length :=
        List.length_pos.mpr (halts a (List.mem_cons_self a rest))
      omega
    | none =>
      rw [hma] at h
      exact ih (fun a' ha' => halts a' (List.mem_cons_of_mem _ ha')) l r h

theorem mNotO_length (l r : List Char) (h : mNotO l = some r) : r.length < l.length := by
  unfold mNotO at h
  split at h
  · exact absurd h (by simp)
  · have h' := Option.some.inj h
    subst h'
    simp
  · exact absurd h (by simp)

theorem weeksUnit_length (l r : List Char) (h : weeksUnit l = some r) :
    r.length < l.length :=
  matchAlts_length _ (by decide) l r h

theorem daysUnit_length (l r : List Char) (h : daysUnit l = some r) :
    r.length < l.length :=
  matchAlts_length _ (by decide) l r h

theorem hoursUnit_length (l r : List Char) (h : hoursUnit l = some r) :
    r.length < l.length :=
  matchAlts_length _ (by decide) l r h

theorem minutesUnit_length (l r : List Char) (h : minutesUnit l = some r) :
    r.length < l.length := by
  unfold minutesUnit at h
  cases hma : matchAlts ["minutes".data, "minute".data, "mins".data, "min".data] l with
  | some r' =>
    rw [hma] at h
    have h' := Option.some.inj h
    subst h'
    exact matchAlts_length _ (by decide) l r' hma
  | none =>
    rw [hma] at h
    exact mNotO_length l r h

theorem secondsUnit_length (l r : List Char) (h : secondsUnit l = some r) :
    r.length < l.length :=
  matchAlts_length _ (by decide) l r h

theorem trySuffix_length (unit : List Char → Option (List Char))
    (hu : ∀ l r, unit l = some r → r.length < l.length)
    (l r : List Char) (h : trySuffix unit l = some r) : r.length < l.length := by
  cases l with
  | nil => exact hu [] r h
  | cons c cs =>
    simp only [trySuffix] at h
    split_ifs at h with hsp
    · cases hun : unit cs with
      | some rem =>
        rw [hun] at h
        have h' := Option.some.inj h
        subst h'
        have := hu cs rem hun
        simp only [List.length_cons]
        omega
      | none =>
        rw [hun] at h
        exact hu _ _ h
    · exact hu _ _ h

theorem branchFrom_length (unit : List Char → Option (List Char))
    (hu : ∀ l r, unit l = some r → r.length < l.length) :
    ∀ (l : List Char) (acc v : Nat) (rest : List Char),
      branchFrom unit acc l = some (v, rest) → rest.length < l.length := by
  intro l
  induction l with
  | nil =>
    intro acc v rest h
    simp [branchFrom] at h
  | cons c cs ih =>
    intro acc v rest h
    unfold branchFrom at h
    split_ifs at h with hd
    · cases hts : trySuffix unit cs with
      | some rem =>
        rw [hts] at h
        have h' := Option.some.inj h
        injection h' with h1 h2
        subst h2
        have := trySuffix_length unit hu cs rem hts
        simp only [List.length_cons]
        omega
      | none =>
        rw [hts] at h
        have := ih _ v rest h
        simp only [List.length_cons]
        omega

/-- Every `TIME_RE` match consumes at least one character: the scanner's
resume point is strictly further along the input. -/
theorem tryBranchesAt_length (l : List Char) (u : TimeUnit) (v : Nat)
    (rest : List Char) (h : tryBranchesAt l = some (u, v, rest)) :
    rest.length < l.length := by
  unfold tryBranchesAt at h
  cases hw : branchFrom weeksUnit 0 l with
  | some p =>
    obtain ⟨v', rem⟩ := p
    rw [hw] at h
    have h' := Option.some.inj h
    injection h' with h1 h2
    injection h2 with h3 h4
    subst h4
    exact branchFrom_length weeksUnit weeksUnit_length l 0 v' rem hw
  | none =>
  rw [hw] at h
  cases hd : branchFrom daysUnit 0 l with
  | some p =>
    obtain ⟨v', rem⟩ := p
    rw [hd] at h
    have h' := Option.some.inj h
    injection h' with h1 h2
    injection h2 with h3 h4
    subst h4
    exact branchFrom_length daysUnit daysUnit_length l 0 v' rem hd
  | none =>
  rw [hd] at h
  cases hh : branchFrom hoursUnit 0 l with
  | some p =>
    obtain ⟨v', rem⟩ := p
    rw [hh] at h
    have h' := Option.some.inj h
    injection h' with h1 h2
    injection h2 with h3 h4
    subst h4
    exact branchFrom_length hoursUnit hoursUnit_length l 0 v' rem hh
  | none =>
  rw [hh] at h
  cases hm : branchFrom minutesUnit 0 l with
  | some p =>
    obtain ⟨v', rem⟩ := p
    rw [hm] at h
    have h' := Option.some.inj h
    injection h' with h1 h2
    injection h2 with h3 h4
    subst h4
    exact branchFrom_length minutesUnit minutesUnit_length l 0 v' rem hm
  | none =>
  rw [hm] at h
  cases hs : branchFrom secondsUnit 0 l with
  | some p =>
    obtain ⟨v', rem⟩ := p
    rw [hs] at h
    have h' := Option.some.inj h
    injection h' with h1 h2
    injection h2 with h3 h4
    subst h4
    exact branchFrom_length secondsUnit secondsUnit_length l 0 v' rem hs
  | none =>
  rw [hs] at h
  exact absurd h (by simp)

/-- The scan is fuel-independent once the fuel covers the input length: the
fueled `findMatchesAux` computes the genuine unbounded left-to-right scan. -/
theorem findMatchesAux_fuel (f1 : Nat) :
    ∀ (f2 : Nat) (l : List Char), l.length ≤ f1 → l.length ≤ f2 →
      findMatchesAux f1 l = findMatchesAux f2 l := by
  induction f1 with
  | zero =>
    intro f2 l h1 h2
    have : l = [] := List.length_eq_zero.mp (Nat.le_zero.mp h1)
    subst this
    cases f2 with
    | zero => rfl
    | succ f2' => rfl
  | succ f1' ih =>
    intro f2 l h1 h2
    cases l with
    | nil =>
      cases f2 with
      | zero => rfl
      | succ f2' => rfl
    | cons c cs =>
      cases f2 with
      | zero => simp at h2
      | succ f2' =>
        show (match tryBranchesAt (c :: cs) with
          | some (u, v, rest) => (u, v) :: findMatchesAux f1' rest
          | Option.none => findMatchesAux f1' cs) =
          (match tryBranchesAt (c :: cs) with
          | some (u, v, rest) => (u, v) :: findMatchesAux f2' rest
          | Option.none => findMatchesAux f2' cs)
        cases ht : tryBranchesAt (c :: cs) with
        | some p =>
          obtain ⟨u, v, rest⟩ := p
          have hlt := tryBranchesAt_length (c :: cs) u v rest ht
          have hr1 : rest.length ≤ f1' := by
            simp only [List.length_cons] at hlt h1
            omega
          have hr2 : rest.length ≤ f2' := by
            simp only [List.length_cons] at hlt h2
            omega
          show (u, v) :: findMatchesAux f1' rest = (u, v) :: findMatchesAux f2' rest
          rw [ih f2' rest hr1 hr2]
        | none =>
          have hc1 : cs.length ≤ f1' := by
            simp only [List.length_cons] at h1
            omega
          have hc2 : cs.length ≤ f2' := by
            simp only [List.length_cons] at h2
            omega
          show findMatchesAux f1' cs = findMatchesAux f2' cs
          rw [ih f2' cs hc1 hc2]

/-- Any fuel at least the input length computes `findMatches`. -/
theorem findMatches_fuel (s : String) (fuel : Nat)
    (h : (lowerList s.data).length ≤ fuel) :
    findMatchesAux fuel (lowerList s.data) = findMatches s :=
  findMatchesAux_fuel fuel (lowerList s.data).length (lowerList s.data) h le_rfl
